import Mathlib

/-!
Shallow embedding of the enumeration-based Bayesian inference engine in
`src/inference.py` (functions `obtener_probabilidad`, `enumerar_todo`,
`consulta_enumeracion`).

Modelling choices:
* Variable names and values are `Nat` (the Python code is polymorphic in
  hashable values; only equality of values is ever used).
* A Python evidence dict is a partial map `Evid := Nat → Option Nat`;
  `dict.__setitem__` is `setE`, `dict.pop` removes the key (`eraseE`) and
  raises `KeyError` when the key is absent.
* Probabilities are `ℚ` (exact arithmetic in place of IEEE doubles; every
  claim below is about values/errors, not rounding).
* A pandas CPT DataFrame is a list of rows; a row stores its parent-column
  cells (`pv`), its `value` cell and its `prob` cell.  Boolean-mask
  filtering `df[df[col] == v]` is `List.filter`; `.iloc[0]` on an empty
  frame raises `IndexError`.
* The `networkx.DiGraph` is a `Net`: node list, predecessor lists, the
  optional per-node `cpt` attribute (`G.nodes[v]['cpt']` raises `KeyError`
  when absent) and the list produced by `nx.topological_sort(G)` (a pure,
  deterministic function of the graph, carried as a field).
* The `RastreadorInferencia` tracer only prints/appends strings; it never
  feeds back into any computed value, so it is omitted from the embedding.
* Python exceptions abort the computation while in-place dict mutations
  performed so far persist; fallible functions therefore return
  `Except (PyErr × Evid) (α × Evid)`, threading the evidence dict through
  both the success and the error outcome.
* `vars_red` maps each variable to its domain.  In the Python entry point
  the domains are sets; they are modelled as duplicate-free lists (the
  iteration order of the set).
* `PyErr` also lists the exception classes named by the specification
  (`InvalidQueryError`, `ZeroEvidenceProbabilityError`); no code path
  constructs them, which is itself the subject of several claims.
-/

abbrev Var := Nat
abbrev Val := Nat

/-- A Python dict from variable names to values. -/
abbrev Evid := Var → Option Val

/-- `evid[x] = v` (in-place assignment, modelled functionally). -/
def setE (e : Evid) (x : Var) (v : Val) : Evid :=
  fun k => if k = x then some v else e k

/-- `evid.pop(x)` after the key check succeeded: the map without `x`. -/
def eraseE (e : Evid) (x : Var) : Evid :=
  fun k => if k = x then none else e k

/-- Exceptions that can propagate out of the inference code.  The last two
constructors exist only in the specification text; the source never raises
them. -/
inductive PyErr where
  | keyError (k : Nat)
  | indexError
  | zeroDivisionError
  | invalidQueryError
  | zeroEvidenceProbabilityError
deriving DecidableEq, Repr

/-- One row of a CPT DataFrame: parent-column cells, the `value` cell and
the `prob` cell. -/
structure Row where
  pv : List (Var × Val)
  value : Val
  prob : ℚ
deriving DecidableEq, Repr

/-- The Bayesian network: a `networkx.DiGraph` with per-node CPT attribute
and its (deterministic) topological sort. -/
structure Net where
  nodes : List Var
  parents : Var → List Var
  cpt : Var → Option (List Row)
  topo : List Var

/-- Cell of a row at a parent column (association-list lookup). -/
def lookupPV (pv : List (Var × Val)) (c : Var) : Option Val :=
  match pv with
  | [] => none
  | (k, v) :: rest => if k = c then some v else lookupPV rest c

/-- `row` survives every parent-column filter `df[df[p] == val]` of the
query built from the parent assignment `pvs`. -/
def rowMatches (row : Row) (pvs : List (Var × Val)) : Bool :=
  pvs.all (fun cv => lookupPV row.pv cv.1 == some cv.2)

/-- The dict comprehension `{p: evidencia[p] for p in padres}`: evaluates
the evidence at each parent in order, raising `KeyError` at the first
missing one. -/
def consultaPadres (padres : List Var) (evid : Evid) :
    Except PyErr (List (Var × Val)) :=
  match padres with
  | [] => .ok []
  | p :: rest =>
    match evid p with
    | none => .error (.keyError p)
    | some v =>
      match consultaPadres rest evid with
      | .error e => .error e
      | .ok pvs => .ok ((p, v) :: pvs)

/-- `obtener_probabilidad(var, evidencia, G)`: the probability of
`var = evidencia[var]` given the parent values recorded in the evidence,
looked up in the CPT attached to the node. -/
def obtenerProb (var : Var) (evid : Evid) (G : Net) : Except PyErr ℚ :=
  match G.cpt var with
  | none => .error (.keyError var)
  | some cpt =>
    match G.parents var with
    | [] =>
      match evid var with
      | none => .error (.keyError var)
      | some v =>
        match cpt.filter (fun row => row.value == v) with
        | [] => .error .indexError
        | row :: _ => .ok row.prob
    | p :: ps =>
      match consultaPadres (p :: ps) evid with
      | .error e => .error e
      | .ok pvs =>
        match evid var with
        | none => .error (.keyError var)
        | some v =>
          match cpt.filter (fun row => rowMatches row pvs && row.value == v) with
          | [] => .error .indexError
          | row :: _ => .ok row.prob

/-- Result type of the stateful recursion: either a value together with the
evidence dict as left on success, or an exception together with the
evidence dict as left at the moment of the raise. -/
abbrev Res := Except (PyErr × Evid) (ℚ × Evid)

/-- The `for y in vars_red[Y]` loop of `enumerar_todo`: sets `evidencia[Y] = y`,
multiplies the conditional probability by the recursive result `k` over the
remaining variables, and accumulates the running `total`. -/
def enumSum (Y : Var) (G : Net) (k : Evid → Res) (vals : List Val)
    (total : ℚ) (evid : Evid) : Res :=
  match vals with
  | [] => .ok (total, evid)
  | y :: ys =>
    let e1 := setE evid Y y
    match obtenerProb Y e1 G with
    | .error pe => .error (pe, e1)
    | .ok py =>
      match k e1 with
      | .error pr => .error pr
      | .ok (sub, e2) => enumSum Y G k ys (total + py * sub) e2

/-- `enumerar_todo(variables, evidencia, G, vars_red, rastreador)`. -/
def enumTodo (G : Net) (varsRed : Var → List Val) :
    List Var → Evid → Res
  | [], evid => .ok (1, evid)
  | Y :: resto, evid =>
    match evid Y with
    | some _ =>
      match obtenerProb Y evid G with
      | .error pe => .error (pe, evid)
      | .ok py =>
        match enumTodo G varsRed resto evid with
        | .error pr => .error pr
        | .ok (r, e2) => .ok (py * r, e2)
    | none =>
      match enumSum Y G (fun e => enumTodo G varsRed resto e) (varsRed Y) 0 evid with
      | .error pr => .error pr
      | .ok (t, e2) =>
        match e2 Y with
        | some _ => .ok (t, eraseE e2 Y)
        | none => .error (.keyError Y, e2)

/-- The `for x in vars_red[X]` loop of `consulta_enumeracion`: sets
`evidencia[X] = x` and stores the unnormalized total returned by
`enumerar_todo` over the topologically sorted variable list. -/
def consultaLoop (X : Var) (G : Net) (varsRed : Var → List Val)
    (xs : List Val) (evid : Evid) :
    Except (PyErr × Evid) (List (Val × ℚ) × Evid) :=
  match xs with
  | [] => .ok ([], evid)
  | x :: rest =>
    let e1 := setE evid X x
    match enumTodo G varsRed G.topo e1 with
    | .error pr => .error pr
    | .ok (q, e2) =>
      match consultaLoop X G varsRed rest e2 with
      | .error pr => .error pr
      | .ok (qs, e3) => .ok ((x, q) :: qs, e3)

/-- `consulta_enumeracion(X, evidencia, G, vars_red)`: the normalized
distribution over `X`, as the list of `(value, probability)` pairs in
domain order.  After the loop the code runs `evidencia.pop(X)` (a
`KeyError` when `X` is absent, which requires an empty domain), sums the
stored totals, and divides each entry by the sum — the first division
raises `ZeroDivisionError` when the sum is zero, and the normalization
loop body never runs when the stored map is empty. -/
def consulta (X : Var) (evid : Evid) (G : Net) (varsRed : Var → List Val) :
    Except (PyErr × Evid) (List (Val × ℚ) × Evid) :=
  match consultaLoop X G varsRed (varsRed X) evid with
  | .error pr => .error pr
  | .ok (qs, e2) =>
    match e2 X with
    | none => .error (.keyError X, e2)
    | some _ =>
      match qs with
      | [] => .ok ([], eraseE e2 X)
      | _ :: _ =>
        if (qs.map (fun xq => xq.2)).sum = 0 then
          .error (.zeroDivisionError, eraseE e2 X)
        else
          .ok (qs.map
            (fun xq => (xq.1, xq.2 / (qs.map (fun xq => xq.2)).sum)),
            eraseE e2 X)

/-! Specification-side definitions, used to state what `enumerar_todo`
computes: the iterated sum, over domain values of the listed variables not
fixed in evidence, of the product of the conditional probabilities looked
up by `obtener_probabilidad`. -/

/-- The conditional probability `obtener_probabilidad` yields at a full
assignment (0 when the lookup fails; the theorems only use it where the
lookup succeeds). -/
def probAt (v : Var) (e : Evid) (G : Net) : ℚ :=
  match obtenerProb v e G with
  | .ok q => q
  | .error _ => 0

/-- Product over the listed variables of their conditional probabilities at
the assignment `e`. -/
def prodProbs (vars : List Var) (e : Evid) (G : Net) : ℚ :=
  (vars.map (fun v => probAt v e G)).prod

/-- The listed variables not fixed in the evidence. -/
def hiddenVars (vars : List Var) (e : Evid) : List Var :=
  vars.filter (fun v => (e v).isNone)

/-- Iterated sum of `F` over all assignments of domain values to the
variables `hs`, starting from the partial assignment `e`. -/
def sumOver (varsRed : Var → List Val) (F : Evid → ℚ) :
    List Var → Evid → ℚ
  | [], e => F e
  | v :: vs, e =>
    ((varsRed v).map (fun x => sumOver varsRed F vs (setE e v x))).sum

/-! Basic facts about the evidence-map operations. -/

theorem setE_self (e : Evid) (x : Var) (v : Val) : setE e x v x = some v := by
  simp [setE]

theorem setE_of_ne (e : Evid) {x k : Var} (v : Val) (h : k ≠ x) :
    setE e x v k = e k := by
  simp [setE, h]

theorem setE_setE (e : Evid) (x : Var) (v w : Val) :
    setE (setE e x v) x w = setE e x w := by
  funext k
  by_cases h : k = x <;> simp [setE, h]

theorem eraseE_setE {e : Evid} {x : Var} (v : Val) (h : e x = none) :
    eraseE (setE e x v) x = e := by
  funext k
  by_cases hk : k = x <;> simp [setE, eraseE, hk]
  exact h.symm

theorem setE_eraseE (e : Evid) (x : Var) (v : Val) :
    setE (eraseE e x) x v = setE e x v := by
  funext k
  by_cases hk : k = x <;> simp [setE, eraseE, hk]

theorem setE_comm (e : Evid) {a b : Var} (x y : Val) (h : a ≠ b) :
    setE (setE e a x) b y = setE (setE e b y) a x := by
  funext k
  by_cases hb : k = b
  · simp [setE, hb, Ne.symm h]
  · by_cases ha : k = a
    · simp [setE, ha, h]
    · simp [setE, ha, hb]

theorem isSome_setE {e : Evid} {k : Var} (x : Var) (v : Val)
    (h : (e k).isSome) : ((setE e x v) k).isSome := by
  by_cases hk : k = x <;> simp [setE, hk, h]

/-! Facts about `obtener_probabilidad`. -/

theorem consultaPadres_congr {padres : List Var} {e1 e2 : Evid}
    (h : ∀ p ∈ padres, e1 p = e2 p) :
    consultaPadres padres e1 = consultaPadres padres e2 := by
  induction padres with
  | nil => rfl
  | cons p rest ih =>
    simp only [consultaPadres]
    rw [h p (List.mem_cons_self p rest),
      ih (fun q hq => h q (List.mem_cons_of_mem p hq))]

theorem consultaPadres_ok_isSome {padres : List Var} {evid : Evid}
    {pvs : List (Var × Val)} (h : consultaPadres padres evid = .ok pvs) :
    ∀ p ∈ padres, (evid p).isSome := by
  induction padres generalizing pvs with
  | nil => simp
  | cons p rest ih =>
    intro q hq
    simp only [consultaPadres] at h
    cases hp : evid p with
    | none => rw [hp] at h; exact absurd h (by simp)
    | some v =>
      rw [hp] at h
      cases hr : consultaPadres rest evid with
      | error e => rw [hr] at h; exact absurd h (by simp)
      | ok pvs2 =>
        rcases List.mem_cons.mp hq with rfl | hq2
        · simp [hp]
        · exact ih hr q hq2

/-- `obtener_probabilidad` reads the evidence only at the variable itself
and at its parents. -/
theorem consultaPadres_err {padres : List Var} {evid : Evid} {e : PyErr}
    (h : consultaPadres padres evid = .error e) : ∃ k, e = .keyError k := by
  induction padres generalizing e with
  | nil => exact absurd h (by simp [consultaPadres])
  | cons p rest ih =>
    simp only [consultaPadres] at h
    cases hp : evid p with
    | none =>
      rw [hp] at h
      simp only [Except.error.injEq] at h
      exact ⟨p, h.symm⟩
    | some v =>
      rw [hp] at h
      cases hr : consultaPadres rest evid with
      | error e2 =>
        rw [hr] at h
        simp only [Except.error.injEq] at h
        exact h ▸ ih hr
      | ok pvs => rw [hr] at h; exact absurd h (by simp)


/-- `obtener_probabilidad` reads the evidence only at the variable itself
and at its parents. -/
theorem obtenerProb_congr {var : Var} {e1 e2 : Evid} {G : Net}
    (hv : e1 var = e2 var) (hp : ∀ p ∈ G.parents var, e1 p = e2 p) :
    obtenerProb var e1 G = obtenerProb var e2 G := by
  unfold obtenerProb
  split
  · rfl
  · split
    · rw [hv]
    · rename_i p ps hpar
      rw [hpar] at hp
      rw [consultaPadres_congr hp, hv]

/-- A successful CPT lookup needs the variable and all its parents in the
evidence. -/
theorem obtenerProb_ok_isSome {var : Var} {evid : Evid} {G : Net} {q : ℚ}
    (h : obtenerProb var evid G = .ok q) :
    (evid var).isSome ∧ ∀ p ∈ G.parents var, (evid p).isSome := by
  unfold obtenerProb at h
  split at h
  · exact absurd h (by simp)
  · split at h
    · rename_i hpar
      split at h
      · exact absurd h (by simp)
      · rename_i v hv
        rw [hpar]
        exact ⟨by simp [hv], by simp⟩
    · rename_i p ps hpar
      split at h
      · exact absurd h (by simp)
      · rename_i pvs hcp
        split at h
        · exact absurd h (by simp)
        · rename_i v hv
          rw [hpar]
          exact ⟨by simp [hv], consultaPadres_ok_isSome hcp⟩

/-- All CPT entries of the network are non-negative (the data-model
invariant that probabilities lie in `[0,1]`, restricted to the half the
claims need). -/
def NonnegCPT (G : Net) : Prop :=
  ∀ v rows, G.cpt v = some rows → ∀ row ∈ rows, 0 ≤ row.prob

theorem obtenerProb_ok_nonneg {var : Var} {evid : Evid} {G : Net} {q : ℚ}
    (hG : NonnegCPT G) (h : obtenerProb var evid G = .ok q) : 0 ≤ q := by
  unfold obtenerProb at h
  split at h
  · exact absurd h (by simp)
  · rename_i cpt hc
    split at h
    · split at h
      · exact absurd h (by simp)
      · split at h
        · exact absurd h (by simp)
        · rename_i v hv row rest hf
          have hmem : row ∈ cpt :=
            List.mem_of_mem_filter (hf ▸ List.mem_cons_self row rest)
          have hq := hG var cpt hc row hmem
          simp only [Except.ok.injEq] at h
          exact h ▸ hq
    · split at h
      · exact absurd h (by simp)
      · split at h
        · exact absurd h (by simp)
        · split at h
          · exact absurd h (by simp)
          · rename_i row rest hf
            have hmem : row ∈ cpt :=
              List.mem_of_mem_filter (hf ▸ List.mem_cons_self row rest)
            have hq := hG var cpt hc row hmem
            simp only [Except.ok.injEq] at h
            exact h ▸ hq

/-- Every exception `obtener_probabilidad` raises is a `KeyError` or an
`IndexError`. -/
theorem obtenerProb_err {var : Var} {evid : Evid} {G : Net} {pe : PyErr}
    (h : obtenerProb var evid G = .error pe) :
    (∃ k, pe = .keyError k) ∨ pe = .indexError := by
  unfold obtenerProb at h
  split at h
  · simp only [Except.error.injEq] at h
    exact Or.inl ⟨var, h.symm⟩
  · split at h
    · split at h
      · simp only [Except.error.injEq] at h
        exact Or.inl ⟨var, h.symm⟩
      · split at h
        · simp only [Except.error.injEq] at h
          exact Or.inr h.symm
        · exact absurd h (by simp)
    · split at h
      · rename_i e hcp
        simp only [Except.error.injEq] at h
        exact Or.inl (h ▸ consultaPadres_err hcp)
      · split at h
        · simp only [Except.error.injEq] at h
          exact Or.inl ⟨var, h.symm⟩
        · split at h
          · simp only [Except.error.injEq] at h
            exact Or.inr h.symm
          · exact absurd h (by simp)

/-! Evidence restoration on successful returns. -/

/-- On a successful pass over the domain, the loop of `enumerar_todo` leaves
the evidence either untouched (empty domain) or with `Y` set to some domain
value. -/
theorem enumSum_ok_evid {Y : Var} {G : Net} {k : Evid → Res}
    (hk : ∀ e r e2, k e = .ok (r, e2) → e2 = e) :
    ∀ (vals : List Val) (t0 : ℚ) (evid : Evid) (t : ℚ) (e2 : Evid),
      enumSum Y G k vals t0 evid = .ok (t, e2) →
      (vals = [] ∧ e2 = evid) ∨ ∃ y ∈ vals, e2 = setE evid Y y := by
  intro vals
  induction vals with
  | nil =>
    intro t0 evid t e2 h
    simp only [enumSum, Except.ok.injEq, Prod.mk.injEq] at h
    exact Or.inl ⟨rfl, h.2.symm⟩
  | cons y ys ih =>
    intro t0 evid t e2 h
    simp only [enumSum] at h
    split at h
    · exact absurd h (by simp)
    · rename_i py hpy
      split at h
      · exact absurd h (by simp)
      · rename_i sub e3 hke
        have he3 : e3 = setE evid Y y := hk _ _ _ hke
        subst he3
        rcases ih _ _ _ _ h with ⟨_, hev⟩ | ⟨y2, hy2, hev⟩
        · exact Or.inr ⟨y, List.mem_cons_self y ys, hev⟩
        · rw [setE_setE] at hev
          exact Or.inr ⟨y2, List.mem_cons_of_mem y hy2, hev⟩

/-- On success `enumerar_todo` hands the evidence dict back exactly as it
received it. -/
theorem enumTodo_ok_evid {G : Net} {varsRed : Var → List Val} :
    ∀ (vars : List Var) (evid : Evid) (r : ℚ) (e2 : Evid),
      enumTodo G varsRed vars evid = .ok (r, e2) → e2 = evid := by
  intro vars
  induction vars with
  | nil =>
    intro evid r e2 h
    simp only [enumTodo, Except.ok.injEq, Prod.mk.injEq] at h
    exact h.2.symm
  | cons Y resto ih =>
    intro evid r e2 h
    simp only [enumTodo] at h
    split at h
    · split at h
      · exact absurd h (by simp)
      · split at h
        · exact absurd h (by simp)
        · rename_i r0 e3 hrec
          simp only [Except.ok.injEq, Prod.mk.injEq] at h
          exact h.2 ▸ ih _ _ _ hrec
    · rename_i hY
      split at h
      · exact absurd h (by simp)
      · rename_i t e3 hsum
        split at h
        · rename_i v he3Y
          simp only [Except.ok.injEq, Prod.mk.injEq] at h
          rcases enumSum_ok_evid (fun e r2 e4 hk => ih _ _ _ hk) _ _ _ _ _ hsum with
            ⟨_, hev⟩ | ⟨y, _, hev⟩
          · rw [hev, hY] at he3Y
            exact absurd he3Y (by simp)
          · rw [← h.2, hev, eraseE_setE _ hY]
        · exact absurd h (by simp)

/-! The iterated sum: multiplicative constants and permutations. -/

/-- A factor that is constant on every assignment reachable from `e` over
the hidden variables `hs` pulls out of the iterated sum. -/
theorem sumOver_mul {varsRed : Var → List Val} (g F : Evid → ℚ) (c : ℚ) :
    ∀ (hs : List Var) (e : Evid),
      (∀ e2 : Evid, (∀ k, k ∉ hs → e2 k = e k) → g e2 = c) →
      sumOver varsRed (fun e2 => g e2 * F e2) hs e
        = c * sumOver varsRed F hs e := by
  intro hs
  induction hs with
  | nil =>
    intro e hg
    simp only [sumOver]
    rw [hg e (fun k _ => rfl)]
  | cons v vs ih =>
    intro e hg
    simp only [sumOver]
    rw [← List.sum_map_mul_left]
    refine congrArg List.sum (List.map_congr_left ?_)
    intro x _
    refine ih (setE e v x) ?_
    intro e2 he2
    refine hg e2 ?_
    intro k hk
    have hkv : k ≠ v := fun hkv => hk (hkv ▸ List.mem_cons_self v vs)
    have hkvs : k ∉ vs := fun hin => hk (List.mem_cons_of_mem v hin)
    rw [he2 k hkvs, setE_of_ne e x hkv]

/-- The summand function can be rewritten pointwise. -/
theorem sumOver_congrF {varsRed : Var → List Val} {F1 F2 : Evid → ℚ}
    (h : ∀ e, F1 e = F2 e) (hs : List Var) (e : Evid) :
    sumOver varsRed F1 hs e = sumOver varsRed F2 hs e := by
  have : F1 = F2 := funext h
  rw [this]

/-- Exchanging two adjacent sums. -/
theorem listSum_comm (xs : List Val) (ys : List Val) (f : Val → Val → ℚ) :
    (xs.map (fun x => (ys.map (fun y => f x y)).sum)).sum
      = (ys.map (fun y => (xs.map (fun x => f x y)).sum)).sum := by
  induction xs with
  | nil => simp
  | cons x xs ih =>
    simp only [List.map_cons, List.sum_cons, ih, ← List.sum_map_add]

/-- The iterated sum over a duplicate-free list of hidden variables is
invariant under permutation of that list. -/
theorem sumOver_perm {varsRed : Var → List Val} {F : Evid → ℚ} :
    ∀ {hs1 hs2 : List Var}, List.Perm hs1 hs2 → hs1.Nodup →
      ∀ e, sumOver varsRed F hs1 e = sumOver varsRed F hs2 e := by
  intro hs1 hs2 hperm
  induction hperm with
  | nil => intro _ e; rfl
  | cons v p ih =>
    intro hnd e
    simp only [sumOver]
    exact congrArg List.sum
      (List.map_congr_left (fun x _ => ih hnd.of_cons (setE e v x)))
  | swap a b l =>
    intro hnd e
    have hab : b ≠ a := (List.nodup_cons.mp hnd).1 ∘
      (fun h => h ▸ List.mem_cons_self a l)
    simp only [sumOver]
    have hswap : ∀ (x y : Val),
        sumOver varsRed F l (setE (setE e b x) a y)
          = sumOver varsRed F l (setE (setE e a y) b x) := by
      intro x y
      rw [setE_comm e x y hab]
    calc ((varsRed b).map (fun x =>
            ((varsRed a).map (fun y =>
              sumOver varsRed F l (setE (setE e b x) a y))).sum)).sum
        = ((varsRed b).map (fun x =>
            ((varsRed a).map (fun y =>
              sumOver varsRed F l (setE (setE e a y) b x))).sum)).sum := by
          refine congrArg List.sum (List.map_congr_left (fun x _ => ?_))
          exact congrArg List.sum (List.map_congr_left (fun y _ => hswap x y))
      _ = ((varsRed a).map (fun y =>
            ((varsRed b).map (fun x =>
              sumOver varsRed F l (setE (setE e a y) b x))).sum)).sum :=
          listSum_comm _ _ _
  | trans p1 p2 ih1 ih2 =>
    intro hnd e
    rw [ih1 hnd e, ih2 (p1.nodup hnd) e]

/-! What `enumerar_todo` computes on success. -/

theorem mem_hiddenVars {v : Var} {vars : List Var} {e : Evid} :
    v ∈ hiddenVars vars e ↔ v ∈ vars ∧ e v = none := by
  simp [hiddenVars, List.mem_filter, Option.isNone_iff_eq_none]

theorem hiddenVars_cons_some {vars : List Var} {e : Evid} {Y : Var} {v : Val}
    (h : e Y = some v) : hiddenVars (Y :: vars) e = hiddenVars vars e := by
  simp [hiddenVars, List.filter_cons, h]

theorem hiddenVars_cons_none {vars : List Var} {e : Evid} {Y : Var}
    (h : e Y = none) : hiddenVars (Y :: vars) e = Y :: hiddenVars vars e := by
  simp [hiddenVars, List.filter_cons, h]

theorem hiddenVars_congr {vars : List Var} {e1 e2 : Evid}
    (h : ∀ v ∈ vars, e1 v = e2 v) : hiddenVars vars e1 = hiddenVars vars e2 :=
  List.filter_congr (fun v hv => by rw [h v hv])

theorem prodProbs_cons (Y : Var) (vars : List Var) (e : Evid) (G : Net) :
    prodProbs (Y :: vars) e G = probAt Y e G * prodProbs vars e G := by
  simp [prodProbs]

theorem probAt_of_ok {v : Var} {e : Evid} {G : Net} {q : ℚ}
    (h : obtenerProb v e G = .ok q) : probAt v e G = q := by
  simp [probAt, h]

/-- Value of a successful pass of the summation loop, in terms of the value
`S` its recursive continuation computes. -/
theorem enumSum_ok_val {Y : Var} {G : Net} {k : Evid → Res} {S : Evid → ℚ}
    (hk : ∀ e r e2, k e = .ok (r, e2) → e2 = e ∧ r = S e) :
    ∀ (vals : List Val) (t0 : ℚ) (evid : Evid) (t : ℚ) (e2 : Evid),
      enumSum Y G k vals t0 evid = .ok (t, e2) →
      t = t0 + (vals.map (fun y =>
        probAt Y (setE evid Y y) G * S (setE evid Y y))).sum := by
  intro vals
  induction vals with
  | nil =>
    intro t0 evid t e2 h
    simp only [enumSum, Except.ok.injEq, Prod.mk.injEq] at h
    simp [← h.1]
  | cons y ys ih =>
    intro t0 evid t e2 h
    simp only [enumSum] at h
    split at h
    · exact absurd h (by simp)
    · rename_i py hpy
      split at h
      · exact absurd h (by simp)
      · rename_i sub e3 hke
        obtain ⟨he3, hsub⟩ := hk _ _ _ hke
        subst he3
        have hrec := ih _ _ _ _ h
        simp only [setE_setE] at hrec
        rw [hrec, hsub, List.map_cons, List.sum_cons, probAt_of_ok hpy]
        ring

/-- A successful pass of the summation loop performed a successful CPT
lookup for every domain value. -/
theorem enumSum_ok_lookups {Y : Var} {G : Net} {k : Evid → Res}
    (hkp : ∀ e r e2, k e = .ok (r, e2) → e2 = e) :
    ∀ (vals : List Val) (t0 : ℚ) (evid : Evid) (t : ℚ) (e2 : Evid),
      enumSum Y G k vals t0 evid = .ok (t, e2) →
      ∀ y ∈ vals, ∃ q, obtenerProb Y (setE evid Y y) G = .ok q := by
  intro vals
  induction vals with
  | nil => intro t0 evid t e2 _ y hy; exact absurd hy (by simp)
  | cons y ys ih =>
    intro t0 evid t e2 h y2 hy2
    simp only [enumSum] at h
    split at h
    · exact absurd h (by simp)
    · rename_i py hpy
      split at h
      · exact absurd h (by simp)
      · rename_i sub e3 hke
        have he3 := hkp _ _ _ hke
        subst he3
        rcases List.mem_cons.mp hy2 with rfl | hy2
        · exact ⟨py, hpy⟩
        · have := ih _ _ _ _ h y2 hy2
          simpa [setE_setE] using this

/-- On success, `enumerar_todo` returns the iterated sum, over all domain
assignments to the listed variables not fixed in evidence, of the product
of the conditional probabilities of the listed variables as looked up by
`obtener_probabilidad`. -/
theorem enumTodo_ok_val {G : Net} {varsRed : Var → List Val} :
    ∀ (vars : List Var), vars.Nodup → ∀ (evid : Evid) (r : ℚ) (e2 : Evid),
      enumTodo G varsRed vars evid = .ok (r, e2) →
      r = sumOver varsRed (fun e => prodProbs vars e G)
            (hiddenVars vars evid) evid := by
  intro vars
  induction vars with
  | nil =>
    intro _ evid r e2 h
    simp only [enumTodo, Except.ok.injEq, Prod.mk.injEq] at h
    simp [← h.1, sumOver, hiddenVars, prodProbs]
  | cons Y resto ih =>
    intro hnd evid r e2 h
    have hndr : resto.Nodup := hnd.of_cons
    have hYr : Y ∉ resto := (List.nodup_cons.mp hnd).1
    simp only [enumTodo] at h
    split at h
    · -- Y already carries an evidence value
      rename_i v hY
      split at h
      · exact absurd h (by simp)
      · rename_i py hpy
        split at h
        · exact absurd h (by simp)
        · rename_i r0 e3 hrec
          simp only [Except.ok.injEq, Prod.mk.injEq] at h
          have hconst : ∀ e4 : Evid,
              (∀ x, x ∉ hiddenVars resto evid → e4 x = evid x) →
              probAt Y e4 G = probAt Y evid G := by
            intro e4 he4
            have hY4 : e4 Y = evid Y := by
              refine he4 Y (fun hmem => ?_)
              rw [(mem_hiddenVars.mp hmem).2] at hY
              exact absurd hY (by simp)
            have hp4 : ∀ p ∈ G.parents Y, e4 p = evid p := by
              intro p hp
              refine he4 p (fun hmem => ?_)
              have hnone := (mem_hiddenVars.mp hmem).2
              have hsome := (obtenerProb_ok_isSome hpy).2 p hp
              rw [hnone] at hsome
              exact absurd hsome (by simp)
            unfold probAt
            rw [obtenerProb_congr hY4 hp4]
          have hmul := @sumOver_mul varsRed
            (fun e => probAt Y e G) (fun e => prodProbs resto e G)
            (probAt Y evid G) (hiddenVars resto evid) evid hconst
          rw [← h.1, ih hndr _ _ _ hrec, hiddenVars_cons_some hY,
            sumOver_congrF (fun e => prodProbs_cons Y resto e G) _ evid,
            hmul, probAt_of_ok hpy]
    · -- Y hidden: sum over its domain
      rename_i hY
      split at h
      · exact absurd h (by simp)
      · rename_i t e3 hsum
        split at h
        · rename_i v he3Y
          simp only [Except.ok.injEq, Prod.mk.injEq] at h
          have hkO : ∀ e r2 e4,
              enumTodo G varsRed resto e = .ok (r2, e4) →
              e4 = e ∧ r2 = sumOver varsRed (fun e5 => prodProbs resto e5 G)
                (hiddenVars resto e) e :=
            fun e r2 e4 hk => ⟨enumTodo_ok_evid _ _ _ _ hk, ih hndr _ _ _ hk⟩
          have hval := enumSum_ok_val hkO _ _ _ _ _ hsum
          have hlk := enumSum_ok_lookups
            (fun e r2 e4 hk => @enumTodo_ok_evid G varsRed
              resto e r2 e4 hk) _ _ _ _ _ hsum
          rw [← h.1, hval, zero_add, hiddenVars_cons_none hY,
            sumOver_congrF (fun e => prodProbs_cons Y resto e G)
              (Y :: hiddenVars resto evid) evid]
          simp only [sumOver]
          refine congrArg List.sum (List.map_congr_left ?_)
          intro y hy
          obtain ⟨py, hpy⟩ := hlk y hy
          have hagree : ∀ w ∈ resto, (setE evid Y y) w = evid w := by
            intro w hw
            exact setE_of_ne evid y (fun hwY => hYr (hwY ▸ hw))
          have hconst : ∀ e4 : Evid,
              (∀ x, x ∉ hiddenVars resto evid → e4 x = (setE evid Y y) x) →
              probAt Y e4 G = probAt Y (setE evid Y y) G := by
            intro e4 he4
            have hY4 : e4 Y = (setE evid Y y) Y := by
              refine he4 Y (fun hmem => ?_)
              exact hYr (mem_hiddenVars.mp hmem).1
            have hp4 : ∀ p ∈ G.parents Y, e4 p = (setE evid Y y) p := by
              intro p hp
              refine he4 p (fun hmem => ?_)
              obtain ⟨hpresto, hnone⟩ := mem_hiddenVars.mp hmem
              have hsome := (obtenerProb_ok_isSome hpy).2 p hp
              have hpY : p ≠ Y := fun hpY => hYr (hpY ▸ hpresto)
              rw [setE_of_ne evid y hpY, hnone] at hsome
              exact absurd hsome (by simp)
            unfold probAt
            rw [obtenerProb_congr hY4 hp4]
          have hmul := @sumOver_mul varsRed
            (fun e => probAt Y e G) (fun e => prodProbs resto e G)
            (probAt Y (setE evid Y y) G) (hiddenVars resto evid)
            (setE evid Y y) hconst
          rw [hmul, hiddenVars_congr hagree]
        · exact absurd h (by simp)

/-! Non-negativity of the computed totals. -/

theorem enumSum_ok_nonneg {Y : Var} {G : Net} {k : Evid → Res}
    (hG : NonnegCPT G) (hk : ∀ e r e2, k e = .ok (r, e2) → 0 ≤ r) :
    ∀ (vals : List Val) (t0 : ℚ) (evid : Evid) (t : ℚ) (e2 : Evid),
      0 ≤ t0 → enumSum Y G k vals t0 evid = .ok (t, e2) → 0 ≤ t := by
  intro vals
  induction vals with
  | nil =>
    intro t0 evid t e2 ht0 h
    simp only [enumSum, Except.ok.injEq, Prod.mk.injEq] at h
    exact h.1 ▸ ht0
  | cons y ys ih =>
    intro t0 evid t e2 ht0 h
    simp only [enumSum] at h
    split at h
    · exact absurd h (by simp)
    · rename_i py hpy
      split at h
      · exact absurd h (by simp)
      · rename_i sub e3 hke
        refine ih _ _ _ _ ?_ h
        exact add_nonneg ht0
          (mul_nonneg (obtenerProb_ok_nonneg hG hpy) (hk _ _ _ hke))

theorem enumTodo_ok_nonneg {G : Net} {varsRed : Var → List Val}
    (hG : NonnegCPT G) :
    ∀ (vars : List Var) (evid : Evid) (r : ℚ) (e2 : Evid),
      enumTodo G varsRed vars evid = .ok (r, e2) → 0 ≤ r := by
  intro vars
  induction vars with
  | nil =>
    intro evid r e2 h
    simp only [enumTodo, Except.ok.injEq, Prod.mk.injEq] at h
    rw [← h.1]
    norm_num
  | cons Y resto ih =>
    intro evid r e2 h
    simp only [enumTodo] at h
    split at h
    · split at h
      · exact absurd h (by simp)
      · rename_i py hpy
        split at h
        · exact absurd h (by simp)
        · rename_i r0 e3 hrec
          simp only [Except.ok.injEq, Prod.mk.injEq] at h
          exact h.1 ▸
            mul_nonneg (obtenerProb_ok_nonneg hG hpy) (ih _ _ _ hrec)
    · split at h
      · exact absurd h (by simp)
      · rename_i t e3 hsum
        split at h
        · simp only [Except.ok.injEq, Prod.mk.injEq] at h
          exact h.1 ▸ enumSum_ok_nonneg hG
            (fun e r2 e4 hk => ih _ _ _ hk) _ _ _ _ _ (le_refl 0) hsum
        · exact absurd h (by simp)

/-! The query loop of `consulta_enumeracion`. -/

/-- A successful query loop returns one entry per domain value, in order,
and leaves the evidence with `X` set to some domain value (unless the
domain was empty). -/
theorem consultaLoop_ok {X : Var} {G : Net} {varsRed : Var → List Val} :
    ∀ (xs : List Val) (evid : Evid) (qs : List (Val × ℚ)) (e3 : Evid),
      consultaLoop X G varsRed xs evid = .ok (qs, e3) →
      qs.map Prod.fst = xs ∧
        ((xs = [] ∧ e3 = evid) ∨ ∃ x ∈ xs, e3 = setE evid X x) := by
  intro xs
  induction xs with
  | nil =>
    intro evid qs e3 h
    simp only [consultaLoop, Except.ok.injEq, Prod.mk.injEq] at h
    exact ⟨by rw [← h.1]; rfl, Or.inl ⟨rfl, h.2.symm⟩⟩
  | cons x rest ih =>
    intro evid qs e3 h
    simp only [consultaLoop] at h
    split at h
    · exact absurd h (by simp)
    · rename_i q e2 het
      split at h
      · exact absurd h (by simp)
      · rename_i qs2 e4 hloop
        simp only [Except.ok.injEq, Prod.mk.injEq] at h
        have he2 : e2 = setE evid X x := enumTodo_ok_evid _ _ _ _ het
        subst he2
        obtain ⟨hfst, hshape⟩ := ih _ _ _ hloop
        constructor
        · rw [← h.1, List.map_cons, hfst]
        · rcases hshape with ⟨_, he4⟩ | ⟨x2, hx2, he4⟩
          · exact Or.inr ⟨x, List.mem_cons_self x rest,
              h.2 ▸ he4 ▸ rfl⟩
          · rw [setE_setE] at he4
            exact Or.inr ⟨x2, List.mem_cons_of_mem x hx2, h.2 ▸ he4 ▸ rfl⟩

theorem consultaLoop_ok_nonneg {X : Var} {G : Net} {varsRed : Var → List Val}
    (hG : NonnegCPT G) :
    ∀ (xs : List Val) (evid : Evid) (qs : List (Val × ℚ)) (e3 : Evid),
      consultaLoop X G varsRed xs evid = .ok (qs, e3) →
      ∀ xq ∈ qs, 0 ≤ xq.2 := by
  intro xs
  induction xs with
  | nil =>
    intro evid qs e3 h xq hxq
    simp only [consultaLoop, Except.ok.injEq, Prod.mk.injEq] at h
    rw [← h.1] at hxq
    exact absurd hxq (by simp)
  | cons x rest ih =>
    intro evid qs e3 h xq hxq
    simp only [consultaLoop] at h
    split at h
    · exact absurd h (by simp)
    · rename_i q e2 het
      split at h
      · exact absurd h (by simp)
      · rename_i qs2 e4 hloop
        simp only [Except.ok.injEq, Prod.mk.injEq] at h
        rw [← h.1] at hxq
        rcases List.mem_cons.mp hxq with rfl | hxq2
        · exact enumTodo_ok_nonneg hG _ _ _ _ het
        · exact ih _ _ _ hloop xq hxq2

/-! The branches of `consulta_enumeracion` after the loop. -/

/-- Successful normalization: non-empty stored map, non-zero total. -/
theorem consulta_ok_of {X : Var} {G : Net} {vr : Var → List Val} {evid : Evid}
    {q : Val × ℚ} {qs : List (Val × ℚ)} {e2 : Evid} {v : Val}
    (h : consultaLoop X G vr (vr X) evid = .ok (q :: qs, e2))
    (hx : e2 X = some v)
    (ht : ((q :: qs).map (fun xq => xq.2)).sum ≠ 0) :
    consulta X evid G vr =
      .ok ((q :: qs).map
        (fun xq => (xq.1, xq.2 / ((q :: qs).map (fun xq => xq.2)).sum)),
        eraseE e2 X) := by
  unfold consulta
  rw [h]
  simp only [hx, if_neg ht]

/-- Zero total with a non-empty stored map: the first division raises
`ZeroDivisionError`, after `X` has already been popped. -/
theorem consulta_zeroDiv_of {X : Var} {G : Net} {vr : Var → List Val}
    {evid : Evid} {q : Val × ℚ} {qs : List (Val × ℚ)} {e2 : Evid} {v : Val}
    (h : consultaLoop X G vr (vr X) evid = .ok (q :: qs, e2))
    (hx : e2 X = some v)
    (ht : ((q :: qs).map (fun xq => xq.2)).sum = 0) :
    consulta X evid G vr = .error (.zeroDivisionError, eraseE e2 X) := by
  unfold consulta
  rw [h]
  simp only [hx, if_pos ht]

/-- Inversion of a successful `consulta_enumeracion`. -/
theorem consulta_ok_elim {X : Var} {evid : Evid} {G : Net}
    {vr : Var → List Val} {d : List (Val × ℚ)} {e4 : Evid}
    (h : consulta X evid G vr = .ok (d, e4)) :
    ∃ qs e2, consultaLoop X G vr (vr X) evid = .ok (qs, e2) ∧
      (e2 X).isSome ∧ e4 = eraseE e2 X ∧
      ((qs = [] ∧ d = []) ∨
        (qs ≠ [] ∧ (qs.map (fun xq => xq.2)).sum ≠ 0 ∧
          d = qs.map
            (fun xq => (xq.1, xq.2 / (qs.map (fun xq => xq.2)).sum)))) := by
  unfold consulta at h
  split at h
  · exact absurd h (by simp)
  · rename_i qs e2 hloop
    split at h
    · exact absurd h (by simp)
    · rename_i v hx
      split at h
      · simp only [Except.ok.injEq, Prod.mk.injEq] at h
        exact ⟨[], e2, hloop, by simp [hx], h.2.symm,
          Or.inl ⟨rfl, h.1.symm⟩⟩
      · rename_i q qs2
        split at h
        · exact absurd h (by simp)
        · rename_i ht
          simp only [Except.ok.injEq, Prod.mk.injEq] at h
          exact ⟨q :: qs2, e2, hloop, by simp [hx], h.2.symm,
            Or.inr ⟨by simp, ht, h.1.symm⟩⟩

/-- On success, when the query variable was not in the original evidence,
`consulta_enumeracion` hands back exactly the evidence it received. -/
theorem consulta_ok_evid {X : Var} {evid : Evid} {G : Net}
    {vr : Var → List Val} {d : List (Val × ℚ)} {e4 : Evid}
    (hX : evid X = none) (h : consulta X evid G vr = .ok (d, e4)) :
    e4 = evid := by
  obtain ⟨qs, e2, hloop, hx, he4, _⟩ := consulta_ok_elim h
  rcases (consultaLoop_ok _ _ _ _ hloop).2 with ⟨_, he2⟩ | ⟨x, _, he2⟩
  · rw [he2, hX] at hx
    exact absurd hx (by simp)
  · rw [he4, he2, eraseE_setE _ hX]

/-- Any successful return of `consulta_enumeracion` has removed the query
variable from the evidence dict. -/
theorem consulta_ok_query_none {X : Var} {evid : Evid} {G : Net}
    {vr : Var → List Val} {d : List (Val × ℚ)} {e4 : Evid}
    (h : consulta X evid G vr = .ok (d, e4)) : e4 X = none := by
  obtain ⟨qs, e2, _, _, he4, _⟩ := consulta_ok_elim h
  rw [he4]
  simp [eraseE]

/-- The returned distribution lists exactly the domain values, in order. -/
theorem consulta_ok_fst {X : Var} {evid : Evid} {G : Net}
    {vr : Var → List Val} {d : List (Val × ℚ)} {e4 : Evid}
    (h : consulta X evid G vr = .ok (d, e4)) : d.map Prod.fst = vr X := by
  obtain ⟨qs, e2, hloop, _, _, hd⟩ := consulta_ok_elim h
  have hfst := (consultaLoop_ok _ _ _ _ hloop).1
  rcases hd with ⟨hqs, hdq⟩ | ⟨_, _, hdq⟩
  · rw [hdq, ← hfst, hqs]
  · rw [hdq, List.map_map, ← hfst]
    rfl

/-! Shapes of the exceptions each function can raise. -/


theorem enumSum_err {Y : Var} {G : Net} {k : Evid → Res}
    (hk : ∀ e pe e2, k e = .error (pe, e2) →
      (∃ k0, pe = .keyError k0) ∨ pe = .indexError) :
    ∀ (vals : List Val) (t0 : ℚ) (evid : Evid) (pe : PyErr) (e2 : Evid),
      enumSum Y G k vals t0 evid = .error (pe, e2) →
      (∃ k0, pe = .keyError k0) ∨ pe = .indexError := by
  intro vals
  induction vals with
  | nil => intro t0 evid pe e2 h; exact absurd h (by simp [enumSum])
  | cons y ys ih =>
    intro t0 evid pe e2 h
    simp only [enumSum] at h
    split at h
    · rename_i pe2 hpe
      simp only [Except.error.injEq, Prod.mk.injEq] at h
      exact h.1 ▸ obtenerProb_err hpe
    · split at h
      · rename_i pr hke
        simp only [Except.error.injEq] at h
        subst h
        exact hk _ _ _ hke
      · exact ih _ _ _ _ h

theorem enumTodo_err {G : Net} {varsRed : Var → List Val} :
    ∀ (vars : List Var) (evid : Evid) (pe : PyErr) (e2 : Evid),
      enumTodo G varsRed vars evid = .error (pe, e2) →
      (∃ k0, pe = .keyError k0) ∨ pe = .indexError := by
  intro vars
  induction vars with
  | nil => intro evid pe e2 h; exact absurd h (by simp [enumTodo])
  | cons Y resto ih =>
    intro evid pe e2 h
    simp only [enumTodo] at h
    split at h
    · split at h
      · rename_i pe2 hpe
        simp only [Except.error.injEq, Prod.mk.injEq] at h
        exact h.1 ▸ obtenerProb_err hpe
      · split at h
        · rename_i pr hrec
          simp only [Except.error.injEq] at h
          subst h
          exact ih _ _ _ hrec
        · exact absurd h (by simp)
    · split at h
      · rename_i pr hsum
        simp only [Except.error.injEq] at h
        subst h
        refine enumSum_err ?_ _ _ _ _ _ hsum
        intro e pe2 e4 hke
        exact ih _ _ _ hke
      · split at h
        · exact absurd h (by simp)
        · simp only [Except.error.injEq, Prod.mk.injEq] at h
          exact Or.inl ⟨Y, h.1.symm⟩

theorem consultaLoop_err {X : Var} {G : Net} {varsRed : Var → List Val} :
    ∀ (xs : List Val) (evid : Evid) (pe : PyErr) (e2 : Evid),
      consultaLoop X G varsRed xs evid = .error (pe, e2) →
      (∃ k0, pe = .keyError k0) ∨ pe = .indexError := by
  intro xs
  induction xs with
  | nil => intro evid pe e2 h; exact absurd h (by simp [consultaLoop])
  | cons x rest ih =>
    intro evid pe e2 h
    simp only [consultaLoop] at h
    split at h
    · rename_i pr het
      simp only [Except.error.injEq] at h
      subst h
      exact enumTodo_err _ _ _ _ het
    · split at h
      · rename_i pr hloop
        simp only [Except.error.injEq] at h
        subst h
        exact ih _ _ _ hloop
      · exact absurd h (by simp)

/-- Every exception `consulta_enumeracion` raises is a built-in `KeyError`,
`IndexError` or `ZeroDivisionError` — in particular it never raises the
`InvalidQueryError` or `ZeroEvidenceProbabilityError` classes the
specification describes. -/
theorem consulta_err {X : Var} {evid : Evid} {G : Net} {vr : Var → List Val}
    {pe : PyErr} {e2 : Evid}
    (h : consulta X evid G vr = .error (pe, e2)) :
    (∃ k0, pe = .keyError k0) ∨ pe = .indexError ∨
      pe = .zeroDivisionError := by
  unfold consulta at h
  split at h
  · rename_i pr hloop
    simp only [Except.error.injEq] at h
    subst h
    rcases consultaLoop_err _ _ _ _ hloop with hk | hi
    · exact Or.inl hk
    · exact Or.inr (Or.inl hi)
  · split at h
    · simp only [Except.error.injEq, Prod.mk.injEq] at h
      exact Or.inl ⟨X, h.1.symm⟩
    · split at h
      · exact absurd h (by simp)
      · split at h
        · simp only [Except.error.injEq, Prod.mk.injEq] at h
          exact Or.inr (Or.inr h.1.symm)
        · exact absurd h (by simp)

/-! Reachability of the missing-evidence `KeyError`. -/

/-- The listed variables form a parent-closed (topological) sequence with
respect to the evidence: each parent of the i-th listed variable either
already has an evidence value or appears earlier in the list. -/
def TopoResolved (G : Net) (evid : Evid) (vars : List Var) : Prop :=
  ∀ i, (h : i < vars.length) → ∀ p ∈ G.parents (vars.get ⟨i, h⟩),
    (evid p).isSome ∨ p ∈ vars.take i

theorem topoResolved_head {G : Net} {evid : Evid} {Y : Var} {resto : List Var}
    (h : TopoResolved G evid (Y :: resto)) :
    ∀ p ∈ G.parents Y, (evid p).isSome := by
  intro p hp
  rcases h 0 (Nat.succ_pos _) p hp with hs | hmem
  · exact hs
  · exact absurd hmem (by simp)

theorem topoResolved_tail {G : Net} {evid : Evid} {Y : Var} {resto : List Var}
    (h : TopoResolved G evid (Y :: resto)) (e2 : Evid)
    (h1 : ∀ x, (evid x).isSome → (e2 x).isSome) (h2 : (e2 Y).isSome) :
    TopoResolved G e2 resto := by
  intro i hi p hp
  have hlt : i + 1 < (Y :: resto).length := Nat.succ_lt_succ hi
  rcases h (i + 1) hlt p hp with hs | hmem
  · exact Or.inl (h1 p hs)
  · rw [List.take_succ_cons] at hmem
    rcases List.mem_cons.mp hmem with rfl | hmem2
    · exact Or.inl h2
    · exact Or.inr hmem2

/-- `consulta` dict construction succeeds when every parent has evidence,
and matching against the resulting parent query is matching against the
evidence. -/
theorem consultaPadres_of_isSome {padres : List Var} {evid : Evid}
    (h : ∀ p ∈ padres, (evid p).isSome) :
    ∃ pvs, consultaPadres padres evid = .ok pvs ∧
      ∀ row : Row, rowMatches row pvs =
        padres.all (fun p => lookupPV row.pv p == evid p) := by
  induction padres with
  | nil => exact ⟨[], rfl, fun row => by simp [rowMatches]⟩
  | cons p rest ih =>
    obtain ⟨v, hv⟩ :=
      Option.isSome_iff_exists.mp (h p (List.mem_cons_self p rest))
    obtain ⟨pvs, hok, hrm⟩ := ih (fun q hq => h q (List.mem_cons_of_mem p hq))
    refine ⟨(p, v) :: pvs, ?_, ?_⟩
    · simp only [consultaPadres, hv, hok]
    · intro row
      have hcons : rowMatches row ((p, v) :: pvs)
          = ((lookupPV row.pv p == some v) && rowMatches row pvs) := by
        simp [rowMatches]
      rw [hcons, hrm row, List.all_cons, hv]

/-- With the CPT attached and the variable and all its parents present in
the evidence, `obtener_probabilidad` cannot raise a `KeyError`. -/
theorem obtenerProb_no_keyError {var : Var} {evid : Evid} {G : Net}
    (hc : (G.cpt var).isSome) (hv : (evid var).isSome)
    (hp : ∀ p ∈ G.parents var, (evid p).isSome) :
    ∀ k0 : Nat, obtenerProb var evid G ≠ .error (.keyError k0) := by
  intro k0 h
  unfold obtenerProb at h
  split at h
  · rename_i hcn
    rw [hcn] at hc
    exact absurd hc (by simp)
  · split at h
    · split at h
      · rename_i hvn
        rw [hvn] at hv
        exact absurd hv (by simp)
      · split at h
        · simp at h
        · simp at h
    · rename_i p ps hpar
      split at h
      · rename_i e hcp
        rw [hpar] at hp
        obtain ⟨pvs, hok, _⟩ := consultaPadres_of_isSome hp
        rw [hok] at hcp
        exact absurd hcp (by simp)
      · split at h
        · rename_i hvn
          rw [hvn] at hv
          exact absurd hv (by simp)
        · split at h
          · simp at h
          · simp at h

theorem enumSum_no_keyError {Y : Var} {G : Net} {k : Evid → Res} {evid : Evid}
    (hobt : ∀ y : Val, ∀ k0 : Nat,
      obtenerProb Y (setE evid Y y) G ≠ .error (.keyError k0))
    (hk : ∀ y : Val, ∀ k0 e3,
      k (setE evid Y y) ≠ .error (.keyError k0, e3))
    (hkp : ∀ e r e2, k e = .ok (r, e2) → e2 = e) :
    ∀ (vals : List Val) (t0 : ℚ) (e : Evid),
      (e = evid ∨ ∃ y0, e = setE evid Y y0) →
      ∀ k0 e2, enumSum Y G k vals t0 e ≠ .error (.keyError k0, e2) := by
  intro vals
  induction vals with
  | nil => intro t0 e _ k0 e2 h; exact absurd h (by simp [enumSum])
  | cons y ys ih =>
    intro t0 e he k0 e2 h
    have he1 : setE e Y y = setE evid Y y := by
      rcases he with rfl | ⟨y0, rfl⟩
      · rfl
      · rw [setE_setE]
    simp only [enumSum, he1] at h
    split at h
    · rename_i pe2 hpe
      simp only [Except.error.injEq, Prod.mk.injEq] at h
      exact hobt y k0 (h.1 ▸ hpe)
    · split at h
      · rename_i pr hke
        simp only [Except.error.injEq] at h
        subst h
        exact hk y k0 _ hke
      · rename_i sub e3 hke
        have he3 : e3 = setE evid Y y := hkp _ _ _ hke
        subst he3
        exact ih _ _ (Or.inr ⟨y, rfl⟩) k0 e2 h

/-- When the listed variables are parent-closed in order, every listed node
carries a CPT and every listed domain is non-empty, `enumerar_todo` never
raises a `KeyError`: each evidence lookup is performed only after the
variable and its parents have been assigned. -/
theorem enumTodo_no_keyError {G : Net} {varsRed : Var → List Val} :
    ∀ (vars : List Var) (evid : Evid),
      TopoResolved G evid vars →
      (∀ v ∈ vars, (G.cpt v).isSome) →
      (∀ v ∈ vars, varsRed v ≠ []) →
      ∀ k0 e2, enumTodo G varsRed vars evid ≠ .error (.keyError k0, e2) := by
  intro vars
  induction vars with
  | nil => intro evid _ _ _ k0 e2 h; exact absurd h (by simp [enumTodo])
  | cons Y resto ih =>
    intro evid htopo hcpt hdom k0 e2 h
    have hparY : ∀ p ∈ G.parents Y, (evid p).isSome := topoResolved_head htopo
    have hcptY : (G.cpt Y).isSome := hcpt Y (List.mem_cons_self Y resto)
    simp only [enumTodo] at h
    split at h
    · rename_i v hY
      split at h
      · rename_i pe hpe
        simp only [Except.error.injEq, Prod.mk.injEq] at h
        exact obtenerProb_no_keyError hcptY (by simp [hY]) hparY k0 (h.1 ▸ hpe)
      · split at h
        · rename_i pr hrec
          simp only [Except.error.injEq] at h
          subst h
          have htopo2 : TopoResolved G evid resto :=
            topoResolved_tail htopo evid (fun x hx => hx) (by simp [hY])
          exact ih evid htopo2
            (fun v2 hv2 => hcpt v2 (List.mem_cons_of_mem Y hv2))
            (fun v2 hv2 => hdom v2 (List.mem_cons_of_mem Y hv2)) k0 _ hrec
        · exact absurd h (by simp)
    · rename_i hY
      split at h
      · rename_i pr hsum
        simp only [Except.error.injEq] at h
        subst h
        refine enumSum_no_keyError ?_ ?_ ?_ _ _ _ (Or.inl rfl) k0 _ hsum
        · intro y k1
          refine obtenerProb_no_keyError hcptY (by simp [setE_self]) ?_ k1
          intro p hp
          exact isSome_setE _ _ (hparY p hp)
        · intro y k1 e3 hke
          have htopo2 : TopoResolved G (setE evid Y y) resto :=
            topoResolved_tail htopo _ (fun x hx => isSome_setE _ _ hx)
              (by simp [setE_self])
          exact ih _ htopo2
            (fun v2 hv2 => hcpt v2 (List.mem_cons_of_mem Y hv2))
            (fun v2 hv2 => hdom v2 (List.mem_cons_of_mem Y hv2)) k1 _ hke
        · intro e r e3 hke
          exact enumTodo_ok_evid _ _ _ _ hke
      · rename_i t e3 hsum
        split at h
        · exact absurd h (by simp)
        · rename_i he3Y
          rcases enumSum_ok_evid
              (fun e r2 e4 hk2 => enumTodo_ok_evid _ _ _ _ hk2)
              _ _ _ _ _ hsum with ⟨hnil, _⟩ | ⟨y, _, hev⟩
          · exact hdom Y (List.mem_cons_self Y resto) hnil
          · rw [hev] at he3Y
            simp [setE] at he3Y

/-! The CPT-miss behaviour of `obtener_probabilidad`. -/

/-- `row` matches the assignment the lookup for `var` requests: every
parent column agrees with the evidence value of that parent, and the
`value` column agrees with the evidence value of `var` itself. -/
def matchesAssign (G : Net) (var : Var) (evid : Evid) (row : Row) : Bool :=
  (G.parents var).all (fun p => lookupPV row.pv p == evid p) &&
    (some row.value == evid var)

/-- When no CPT row matches the requested assignment, the lookup raises
`IndexError` (`.iloc[0]` on an empty filtered frame) instead of returning
a default probability. -/
theorem obtenerProb_indexError {var : Var} {evid : Evid} {G : Net}
    {cpt : List Row} {v : Val}
    (hc : G.cpt var = some cpt) (hv : evid var = some v)
    (hp : ∀ p ∈ G.parents var, (evid p).isSome)
    (hno : ∀ row ∈ cpt, matchesAssign G var evid row = false) :
    obtenerProb var evid G = .error .indexError := by
  unfold obtenerProb
  split
  · rename_i hcn
    rw [hcn] at hc
    exact absurd hc (by simp)
  · rename_i cpt2 hc2
    rw [hc] at hc2
    have hcc : cpt2 = cpt := by
      simp only [Option.some.injEq] at hc2
      exact hc2.symm
    rw [hcc]
    split
    · rename_i hpar
      have hfe : cpt.filter (fun row => row.value == v) = [] := by
        rw [List.filter_eq_nil_iff]
        intro row hrow
        have hfalse := hno row hrow
        simp only [matchesAssign, hpar, List.all_nil, Bool.true_and, hv] at hfalse
        simp only [beq_iff_eq, Bool.not_eq_true]
        intro hveq
        rw [hveq] at hfalse
        simp at hfalse
      simp only [hv, hfe]
    · rename_i p ps hpar
      rw [hpar] at hp
      obtain ⟨pvs, hok, hrm⟩ := consultaPadres_of_isSome hp
      have hfe : cpt.filter (fun row => rowMatches row pvs && row.value == v)
          = [] := by
        rw [List.filter_eq_nil_iff]
        intro row hrow
        have hfalse := hno row hrow
        simp only [matchesAssign, hpar, hv] at hfalse
        rw [Bool.not_eq_true, hrm row]
        rcases Bool.and_eq_false_iff.mp hfalse with h1 | h2
        · rw [Bool.and_eq_false_iff]
          exact Or.inl h1
        · rw [Bool.and_eq_false_iff]
          refine Or.inr ?_
          simp only [beq_eq_false_iff_ne, ne_eq, Option.some.injEq] at h2
          simp only [beq_eq_false_iff_ne, ne_eq]
          exact h2
      simp only [hok, hv, hfe]

/-! Behaviour of `consulta_enumeracion` when the query variable is already
in the evidence: the first loop iteration overwrites it, so the call is
indistinguishable from one made with the query variable absent. -/

theorem consulta_erase_query {X : Var} {evid : Evid} {G : Net}
    {vr : Var → List Val} (hvr : vr X ≠ []) :
    consulta X evid G vr = consulta X (eraseE evid X) G vr := by
  unfold consulta
  suffices hs : consultaLoop X G vr (vr X) evid
      = consultaLoop X G vr (vr X) (eraseE evid X) by rw [hs]
  cases hxs : vr X with
  | nil => exact absurd hxs hvr
  | cons x rest =>
    simp only [consultaLoop]
    rw [setE_eraseE]

/-! Concrete instances (sprinkler-style network and small degenerate
networks) used to instantiate the theorems. -/

/-- The empty evidence dict. -/
def e0 : Evid := fun _ => none

/-- Sprinkler-style network: `Rain = 0` and `Sprinkler = 1` (no parents,
hence incomparable) both point at `GrassWet = 2`; values `1 = true`,
`0 = false`. -/
def Gw : Net where
  nodes := [0, 1, 2]
  parents := fun v => if v = 2 then [0, 1] else []
  cpt := fun v =>
    if v = 0 then some [⟨[], 1, 1/5⟩, ⟨[], 0, 4/5⟩]
    else if v = 1 then some [⟨[], 1, 1/10⟩, ⟨[], 0, 9/10⟩]
    else if v = 2 then some
      [⟨[(0, 1), (1, 1)], 1, 99/100⟩, ⟨[(0, 1), (1, 1)], 0, 1/100⟩,
       ⟨[(0, 1), (1, 0)], 1, 9/10⟩, ⟨[(0, 1), (1, 0)], 0, 1/10⟩,
       ⟨[(0, 0), (1, 1)], 1, 9/10⟩, ⟨[(0, 0), (1, 1)], 0, 1/10⟩,
       ⟨[(0, 0), (1, 0)], 1, 0⟩, ⟨[(0, 0), (1, 0)], 0, 1⟩]
    else none
  topo := [0, 1, 2]

/-- Binary domain for every variable, iterated as `true` then `false`. -/
def vrW : Var → List Val := fun _ => [1, 0]

/-- A single node whose attached CPT DataFrame has no rows. -/
def Gbad : Net where
  nodes := [0]
  parents := fun _ => []
  cpt := fun v => if v = 0 then some [] else none
  topo := [0]

/-- A single node whose CPT only covers the value `0`. -/
def Gmiss : Net where
  nodes := [0]
  parents := fun _ => []
  cpt := fun v => if v = 0 then some [⟨[], 0, 1⟩] else none
  topo := [0]

/-- Two-node chain `0 → 1` in which `1 = true` has probability zero under
every parent value: observing it is impossible evidence. -/
def GzNet : Net where
  nodes := [0, 1]
  parents := fun v => if v = 1 then [0] else []
  cpt := fun v =>
    if v = 0 then some [⟨[], 1, 1/2⟩, ⟨[], 0, 1/2⟩]
    else if v = 1 then some
      [⟨[(0, 1)], 1, 0⟩, ⟨[(0, 1)], 0, 1⟩,
       ⟨[(0, 0)], 1, 0⟩, ⟨[(0, 0)], 0, 1⟩]
    else none
  topo := [0, 1]

/-- Evidence `{2 ↦ 1}`: the query variable `2` is already observed. -/
def eC5 : Evid := fun k => if k = 2 then some 1 else none

/-- Evidence `{1 ↦ 1}`: the impossible observation for `GzNet`. -/
def eZ : Evid := fun k => if k = 1 then some 1 else none

/-- Evidence `{0 ↦ 1}`: a value the CPT of `Gmiss` does not cover. -/
def eOne : Evid := fun k => if k = 0 then some 1 else none

theorem nonneg_Gw : NonnegCPT Gw := by
  intro v rows h row hrow
  simp only [Gw] at h
  split_ifs at h with h0 h1 h2
  · simp only [Option.some.injEq] at h
    subst h
    fin_cases hrow <;> norm_num
  · simp only [Option.some.injEq] at h
    subst h
    fin_cases hrow <;> norm_num
  · simp only [Option.some.injEq] at h
    subst h
    fin_cases hrow <;> norm_num

/-! The claims. -/

/-- C1: for every network with CPTs, duplicate-free variable list and
evidence map, a successful `enumerar_todo(variables, evidencia, G,
vars_red, rastreador)` returns the sum, over all assignments of domain
values to the listed variables not fixed in evidence, of the product of
each listed variable's conditional probability given its parents as looked
up by `obtener_probabilidad`; in particular the empty list returns exactly
`1.0` (and leaves the evidence untouched). -/
theorem claim1_enumTodo_sum_of_products (G : Net) (varsRed : Var → List Val)
    (vars : List Var) (evid : Evid) (r : ℚ) (e2 : Evid)
    (hnd : vars.Nodup) (h : enumTodo G varsRed vars evid = .ok (r, e2)) :
    r = sumOver varsRed (fun e => prodProbs vars e G)
        (hiddenVars vars evid) evid ∧
      enumTodo G varsRed ([] : List Var) evid = .ok (1, evid) :=
  ⟨enumTodo_ok_val vars hnd evid r e2 h, rfl⟩

theorem claim1_witness :
    ∃ r e2, enumTodo Gw vrW [0, 1, 2] e0 = .ok (r, e2) ∧
      (r = sumOver vrW (fun e => prodProbs [0, 1, 2] e Gw)
          (hiddenVars [0, 1, 2] e0) e0 ∧
        enumTodo Gw vrW ([] : List Var) e0 = .ok (1, e0)) :=
  ⟨_, _, rfl,
    claim1_enumTodo_sum_of_products Gw vrW [0, 1, 2] e0 _ _ (by decide) rfl⟩

/-- C4: two orderings of the same duplicate-free variable set (any two
topological orderings are such), given to `enumerar_todo` with the same
evidence, network and domains, yield the same numeric result whenever both
runs succeed. -/
theorem claim4_order_independence (G : Net) (varsRed : Var → List Val)
    (vs1 vs2 : List Var) (evid : Evid) (r1 r2 : ℚ) (e1 e2 : Evid)
    (hperm : List.Perm vs1 vs2) (hnd : vs1.Nodup)
    (h1 : enumTodo G varsRed vs1 evid = .ok (r1, e1))
    (h2 : enumTodo G varsRed vs2 evid = .ok (r2, e2)) : r1 = r2 := by
  rw [enumTodo_ok_val vs1 hnd evid r1 e1 h1,
    enumTodo_ok_val vs2 (hperm.nodup hnd) evid r2 e2 h2]
  have hF : ∀ e, prodProbs vs1 e G = prodProbs vs2 e G := by
    intro e
    unfold prodProbs
    exact (hperm.map (fun v => probAt v e G)).prod_eq
  rw [sumOver_congrF hF (hiddenVars vs1 evid) evid]
  exact sumOver_perm (hperm.filter _) (hnd.filter _) evid

theorem claim4_witness :
    ∃ r1 e1 r2 e2, enumTodo Gw vrW [0, 1, 2] e0 = .ok (r1, e1) ∧
      enumTodo Gw vrW [1, 0, 2] e0 = .ok (r2, e2) ∧ r1 = r2 :=
  ⟨_, _, _, _, rfl, rfl,
    claim4_order_independence Gw vrW [0, 1, 2] [1, 0, 2] e0 _ _ _ _
      (by decide) (by decide) rfl rfl⟩

/-- C9 (implicit): if the variable list is parent-closed in order (as a
topological order of the whole network is), every listed node carries a
CPT, and every listed domain is non-empty, then the missing-evidence
`KeyError` is unreachable in `enumerar_todo`: a variable's conditional
probability is only resolved after the variable and all its parents have
been assigned. -/
theorem claim9_keyError_unreachable (G : Net) (varsRed : Var → List Val)
    (vars : List Var) (evid : Evid)
    (htopo : TopoResolved G evid vars)
    (hcpt : ∀ v ∈ vars, (G.cpt v).isSome)
    (hdom : ∀ v ∈ vars, varsRed v ≠ []) :
    ∀ k0 e2, enumTodo G varsRed vars evid ≠ .error (.keyError k0, e2) :=
  enumTodo_no_keyError vars evid htopo hcpt hdom

theorem claim9_witness :
    (TopoResolved Gw e0 [0, 1, 2] ∧
      (∀ v ∈ [0, 1, 2], (Gw.cpt v).isSome) ∧
      (∀ v ∈ [0, 1, 2], vrW v ≠ [])) ∧
    enumTodo Gw vrW [0, 1, 2] e0 ≠ .error (.keyError 0, e0) :=
  ⟨⟨by unfold TopoResolved; decide, by decide, by decide⟩,
    claim9_keyError_unreachable Gw vrW [0, 1, 2] e0
      (by unfold TopoResolved; decide) (by decide) (by decide) 0 e0⟩

/-- C2: for every valid query (non-negative CPT entries, non-empty query
domain) on which `consulta_enumeracion` returns a distribution, the
returned values sum to exactly `1` and each value lies in `[0, 1]`. -/
theorem claim2_distribution_normalized (X : Var) (evid : Evid) (G : Net)
    (vr : Var → List Val) (d : List (Val × ℚ)) (e4 : Evid)
    (hG : NonnegCPT G) (hvr : vr X ≠ [])
    (h : consulta X evid G vr = .ok (d, e4)) :
    (d.map (fun xq => xq.2)).sum = 1 ∧ ∀ xq ∈ d, 0 ≤ xq.2 ∧ xq.2 ≤ 1 := by
  obtain ⟨qs, e2, hloop, _, _, hd⟩ := consulta_ok_elim h
  have hfst := (consultaLoop_ok _ _ _ _ hloop).1
  rcases hd with ⟨hqs, _⟩ | ⟨hne, ht, hdq⟩
  · rw [hqs] at hfst
    simp only [List.map_nil] at hfst
    exact absurd hfst.symm hvr
  · have hnn : ∀ xq ∈ qs, 0 ≤ xq.2 := consultaLoop_ok_nonneg hG _ _ _ _ hloop
    have hmapnn : ∀ q ∈ qs.map (fun xq => xq.2), 0 ≤ q := by
      intro q hq
      obtain ⟨xq, hxq, rfl⟩ := List.mem_map.mp hq
      exact hnn xq hxq
    have htotnn : 0 ≤ (qs.map (fun xq => xq.2)).sum := List.sum_nonneg hmapnn
    have htpos : 0 < (qs.map (fun xq => xq.2)).sum :=
      lt_of_le_of_ne htotnn (Ne.symm ht)
    constructor
    · rw [hdq, List.map_map]
      have hcomp : ((fun xq : Val × ℚ => xq.2) ∘
            (fun xq : Val × ℚ =>
              (xq.1, xq.2 / (qs.map (fun xq => xq.2)).sum)))
          = fun xq : Val × ℚ =>
              xq.2 * ((qs.map (fun xq => xq.2)).sum)⁻¹ :=
        funext (fun xq => div_eq_mul_inv _ _)
      rw [hcomp, List.sum_map_mul_right]
      exact mul_inv_cancel₀ ht
    · intro xq hxq
      rw [hdq] at hxq
      obtain ⟨yq, hyq, rfl⟩ := List.mem_map.mp hxq
      refine ⟨div_nonneg (hnn yq hyq) htotnn, ?_⟩
      exact (div_le_one htpos).mpr
        (List.single_le_sum hmapnn _ (List.mem_map_of_mem _ hyq))

theorem claim2_witness :
    ∃ d e4, consulta 2 e0 Gw vrW = .ok (d, e4) ∧
      ((d.map (fun xq => xq.2)).sum = 1 ∧ ∀ xq ∈ d, 0 ≤ xq.2 ∧ xq.2 ≤ 1) :=
  ⟨_, _, consulta_ok_of rfl rfl (by norm_num),
    claim2_distribution_normalized 2 e0 Gw vrW _ _ nonneg_Gw (by decide)
      (consulta_ok_of rfl rfl (by norm_num))⟩

/-- C3 counterexample: on an error path the transient mutation of the
caller's evidence dict is NOT undone.  Querying node `0` of `Gbad` (whose
CPT has no rows) aborts with an `IndexError` while the evidence still
holds the transient assignment `0 ↦ 1`, which the caller's dict (empty at
entry) never contained. -/
theorem claim3_counterexample :
    consulta 0 e0 Gbad vrW = .error (.indexError, setE e0 0 1) ∧
      setE e0 0 1 0 ≠ e0 0 :=
  ⟨rfl, by decide⟩

/-- C3 (amended): on every successful return of `consulta_enumeracion`
with the query variable not initially observed, the caller's evidence dict
is unchanged; on exceptional exits the transient mutations persist (see
the counterexample). -/
theorem claim3_evidence_restored_on_success (X : Var) (evid : Evid)
    (G : Net) (vr : Var → List Val) (d : List (Val × ℚ)) (e4 : Evid)
    (hX : evid X = none) (h : consulta X evid G vr = .ok (d, e4)) :
    e4 = evid :=
  consulta_ok_evid hX h

theorem claim3_witness :
    ∃ d e4, consulta 2 e0 Gw vrW = .ok (d, e4) ∧ e4 = e0 :=
  ⟨_, _, consulta_ok_of rfl rfl (by norm_num),
    claim3_evidence_restored_on_success 2 e0 Gw vrW _ _ rfl
      (consulta_ok_of rfl rfl (by norm_num))⟩

/-- C8: the computation is pure and deterministic; in particular a second
call with the dict handed back by a successful first call (the same dict
object in Python, restored by the first call) returns the identical
distribution. -/
theorem claim8_repeated_calls_identical (X : Var) (evid : Evid) (G : Net)
    (vr : Var → List Val) (d : List (Val × ℚ)) (e4 : Evid)
    (hX : evid X = none) (h : consulta X evid G vr = .ok (d, e4)) :
    consulta X e4 G vr = .ok (d, e4) := by
  have he := consulta_ok_evid hX h
  subst he
  exact h

theorem claim8_witness :
    ∃ d e4, consulta 2 e0 Gw vrW = .ok (d, e4) ∧
      consulta 2 e4 Gw vrW = .ok (d, e4) :=
  ⟨_, _, consulta_ok_of rfl rfl (by norm_num),
    claim8_repeated_calls_identical 2 e0 Gw vrW _ _ rfl
      (consulta_ok_of rfl rfl (by norm_num))⟩

/-- C5 counterexample: querying a variable already present in evidence
raises nothing at all — `consulta_enumeracion` returns a normalized
distribution instead of an `InvalidQueryError`. -/
theorem claim5_counterexample :
    eC5 2 = some 1 ∧ ∃ d e4, consulta 2 eC5 Gw vrW = .ok (d, e4) :=
  ⟨rfl, _, _, consulta_ok_of rfl rfl (by norm_num)⟩

/-- C5 (amended): `consulta_enumeracion` performs no validation of the
query variable: with the query variable already in evidence (and a
non-empty domain) the call behaves exactly as if the variable were
unobserved — the first loop iteration overwrites the caller's value — and
no `InvalidQueryError` is ever raised. -/
theorem claim5_no_invalid_query_check (X : Var) (evid : Evid) (G : Net)
    (vr : Var → List Val) (v : Val)
    (_hX : evid X = some v) (hvr : vr X ≠ []) :
    consulta X evid G vr = consulta X (eraseE evid X) G vr ∧
      ∀ pe e2, consulta X evid G vr = .error (pe, e2) →
        pe ≠ .invalidQueryError := by
  refine ⟨consulta_erase_query hvr, ?_⟩
  intro pe e2 h hinv
  subst hinv
  rcases consulta_err h with ⟨k0, hk⟩ | hi | hz
  · simp at hk
  · simp at hi
  · simp at hz

theorem claim5_witness :
    (eC5 2 = some 1 ∧ vrW 2 ≠ []) ∧
      consulta 2 eC5 Gw vrW = consulta 2 (eraseE eC5 2) Gw vrW :=
  ⟨⟨rfl, by decide⟩,
    (claim5_no_invalid_query_check 2 eC5 Gw vrW 1 rfl (by decide)).1⟩

/-- C6 counterexample: a query whose unnormalized totals sum to zero
(impossible evidence `1 = true` in `GzNet`) raises the built-in
`ZeroDivisionError`, not a `ZeroEvidenceProbabilityError` — no such class
exists anywhere in the source. -/
theorem claim6_counterexample :
    ∃ q qs e2, consultaLoop 0 GzNet vrW (vrW 0) eZ = .ok (q :: qs, e2) ∧
      ((q :: qs).map (fun xq => xq.2)).sum = 0 ∧
      consulta 0 eZ GzNet vrW = .error (.zeroDivisionError, eraseE e2 0) ∧
      PyErr.zeroDivisionError ≠ PyErr.zeroEvidenceProbabilityError :=
  ⟨_, _, _, rfl, by norm_num, consulta_zeroDiv_of rfl rfl (by norm_num),
    by decide⟩

/-- C6 (amended): whenever the query loop completes with a non-empty
stored map whose totals sum to exactly zero, `consulta_enumeracion`
raises a built-in `ZeroDivisionError` (at the first normalization step,
after the query variable has been popped) rather than returning `NaN` or
a distribution. -/
theorem claim6_zero_division_on_zero_total (X : Var) (evid : Evid)
    (G : Net) (vr : Var → List Val) (q : Val × ℚ) (qs : List (Val × ℚ))
    (e2 : Evid) (v : Val)
    (hloop : consultaLoop X G vr (vr X) evid = .ok (q :: qs, e2))
    (hx : e2 X = some v)
    (ht : ((q :: qs).map (fun xq => xq.2)).sum = 0) :
    consulta X evid G vr = .error (.zeroDivisionError, eraseE e2 X) :=
  consulta_zeroDiv_of hloop hx ht

theorem claim6_witness :
    ∃ q qs e2, consultaLoop 0 GzNet vrW (vrW 0) eZ = .ok (q :: qs, e2) ∧
      consulta 0 eZ GzNet vrW = .error (.zeroDivisionError, eraseE e2 0) :=
  ⟨_, _, _, rfl,
    claim6_zero_division_on_zero_total 0 eZ GzNet vrW _ _ _ _ rfl rfl
      (by norm_num)⟩

/-- C7: when no row of the attached CPT matches the requested assignment
of parent values and own value, `obtener_probabilidad` raises an error
(the `IndexError` of `.iloc[0]` on the empty filtered frame) rather than
returning a default probability. -/
theorem claim7_cpt_miss_raises (var : Var) (evid : Evid) (G : Net)
    (cpt : List Row) (v : Val)
    (hc : G.cpt var = some cpt) (hv : evid var = some v)
    (hp : ∀ p ∈ G.parents var, (evid p).isSome)
    (hno : ∀ row ∈ cpt, matchesAssign G var evid row = false) :
    obtenerProb var evid G = .error .indexError :=
  obtenerProb_indexError hc hv hp hno

theorem claim7_witness :
    (Gmiss.cpt 0 = some [⟨[], 0, 1⟩] ∧ eOne 0 = some 1 ∧
      (∀ p ∈ Gmiss.parents 0, (eOne p).isSome) ∧
      (∀ row ∈ [(⟨[], 0, 1⟩ : Row)],
        matchesAssign Gmiss 0 eOne row = false)) ∧
    obtenerProb 0 eOne Gmiss = .error .indexError :=
  ⟨⟨rfl, rfl, by decide, by decide⟩,
    claim7_cpt_miss_raises 0 eOne Gmiss [⟨[], 0, 1⟩] 1 rfl rfl
      (by decide) (by decide)⟩

/-- C10 (implicit): when the query variable `X` is already observed,
`consulta_enumeracion` does not raise; it overwrites `evidencia[X]` with
each domain value in turn — so the result is the one computed as though
`X` were unobserved, the caller's original value being ignored — and on
every successful return `X` has been removed from the caller's evidence
dict. -/
theorem claim10_query_in_evidence_overwritten (X : Var) (evid : Evid)
    (G : Net) (vr : Var → List Val) (v : Val)
    (_hX : evid X = some v) (hvr : vr X ≠ []) :
    consulta X evid G vr = consulta X (eraseE evid X) G vr ∧
      ∀ d e4, consulta X evid G vr = .ok (d, e4) → e4 X = none :=
  ⟨consulta_erase_query hvr, fun _ _ h => consulta_ok_query_none h⟩

theorem claim10_witness :
    eC5 2 = some 1 ∧
      ∃ d e4, consulta 2 eC5 Gw vrW = .ok (d, e4) ∧ e4 2 = none :=
  ⟨rfl, _, _, consulta_ok_of rfl rfl (by norm_num),
    (claim10_query_in_evidence_overwritten 2 eC5 Gw vrW 1 rfl
      (by decide)).2 _ _ (consulta_ok_of rfl rfl (by norm_num))⟩
